import Mathlib

/-!
Formal model of the generic elastic hash table implemented in `hash.go`
(package `elastichash`): level-size partitioning (`clear`), the quadratic
probe sequence (`probe`), the adaptive per-level probe limit, the insertion
decision policy (`Insert`) and the lookup procedure (`Get`).

Modelling conventions, stated once here:

* Go `int` / `int64` values that stay non-negative in every reachable state
  (capacities, sizes, occupancies, item counts, probe attempt indices) are
  modelled as `ℕ`; `remaining` in `clear` is modelled as `ℤ` because the
  source computes it with `math.Floor` on a possibly arbitrary value.
* `float64` arithmetic is modelled as exact rational/real arithmetic.  All
  quantities the source feeds through floats (`load`, `delta/2`, the
  `threshold` constant `0.25`, the level-size divisions by powers of two)
  are either exactly representable in `float64` or integer-valued, so the
  exact model agrees with the source away from knife-edge rounding of
  `free/size`; the probe-limit expression is reduced to an equivalent
  integer form (documented at `probeIters`).
* The special float values follow Go semantics explicitly: for a level of
  size 0 the source computes `load = 0/0 = NaN`; every comparison against
  `NaN` is false (modelled by an `Option ℚ` load, `none` compares false),
  and the probe limit `int64(NaN)` is non-positive on all supported
  targets, so the probe loop runs zero iterations (modelled as 0).
  For a full level (`free = 0`) the source computes `1/load = +Inf`, so
  `min(Log2(+Inf), Log2(1/delta)) = Log2(1/delta)`.
* The key hasher `HashKey` is modelled as an explicit function `K → ℕ`
  passed to the table operations (see the `HashKeyCall` model below for the
  per-call seeding behaviour of the real `hash/maphash`-based code).
-/

namespace ElasticHash

/-- Floor of the base-2 logarithm of a natural number (`flog2 0 = 0`),
written by fuelled structural recursion so that it is kernel-evaluable.
This models `math.Floor(math.Log2 x)` for positive integer-valued `x`. -/
def flog2Aux : ℕ → ℕ → ℕ
  | 0, _ => 0
  | fuel + 1, n => if n ≤ 1 then 0 else flog2Aux fuel (n / 2) + 1

/-- Floor of the base-2 logarithm (0 at 0). -/
def flog2 (n : ℕ) : ℕ := flog2Aux n n

/-- The probe sequence of `HashTable.probe`:
`masked := HashKey(key) & 0xFFFFFFFF; return int(int64(masked)+j*j) % size`.
The hash value is masked to its low 32 bits and offset by the square of the
0-based attempt index `j`; `masked + j*j` never overflows `int64` because
`j` is bounded by the probe limit (at most a few thousand for any
representable `delta`), so the Go expression is exact integer arithmetic. -/
def probe (h : ℕ) (j : ℕ) (size : ℕ) : ℕ := (h % 2 ^ 32 + j * j) % size

/-- The delta-determined ceiling of the probe-limit expression:
`⌊c * log2 (1/delta)⌋ = ⌊log2 ((1/delta)^c)⌋`, in integer form
(for `0 < delta < 1`; the table stores the integer tuning constant `c = 4`). -/
def deltaCap (c : ℕ) (delta : ℚ) : ℕ := flog2 (⌊(1 / delta) ^ c⌋).toNat

/-- Number of iterations of the probe loop `for j := range probeLimit` for a
level of size `size` and occupancy `occ`, where the source computes
`probeLimit := int64(math.Max(1, c*math.Min(math.Log2(math.Max(1/load, 0)), math.Log2(1/delta))))`
with `load := (size-occ)/size`.  Case analysis on the float semantics:

* `size = 0`: `load = NaN`, the whole expression is `NaN`, and `int64(NaN)`
  is non-positive on supported targets, so the loop runs 0 iterations.
* `size < occ` (unreachable in well-formed states): `load < 0`, so
  `math.Max(1/load, 0) = 0`, `Log2 0 = -Inf`, and the limit is 1.
* `occ = size`: `load = 0`, `1/load = +Inf`, so the minimum is
  `Log2(1/delta)` and the limit is `max 1 ⌊c·log2(1/delta)⌋`.
* `0 ≤ occ < size`: `load ∈ (0,1]`, the expression is
  `max(1, c·min(log2(size/free), log2(1/delta)))` with `free = size-occ`;
  its `int64` truncation is `max 1 (min ⌊log2((size/free)^c)⌋ ⌊log2((1/delta)^c)⌋)`,
  and `⌊log2((size/free)^c)⌋ = flog2 (size^c / free^c)` in `ℕ` division. -/
def probeIters (c : ℕ) (delta : ℚ) (size occ : ℕ) : ℕ :=
  if size = 0 then 0
  else if size < occ then 1
  else if size = occ then max 1 (deltaCap c delta)
  else max 1 (min (flog2 (size ^ c / (size - occ) ^ c)) (deltaCap c delta))

/-- One slot of a level: `*entry[K, V]`, `nil` when empty. -/
abbrev Slot (K V : Type) := Option (K × V)

/-- One level: a fixed-length slice of slots. -/
abbrev Level (K V : Type) := List (Slot K V)

variable {K V : Type}

/-- The inner probe loop of `Insert` on one level, searching for the first
empty slot: `for j := range probeLimit { idx := probe(key, j, size); if l[idx] == nil { ... } }`.
`fuel` is the number of remaining attempts, `j` the current attempt index;
returns the index of the first empty slot found, if any. -/
def findSlotAux (hk : ℕ) (l : Level K V) : ℕ → ℕ → Option ℕ
  | _, 0 => none
  | j, fuel + 1 =>
    if (l.getD (probe hk j l.length) none).isNone then some (probe hk j l.length)
    else findSlotAux hk l (j + 1) fuel

/-- The probe loop of `Insert` starting from attempt 0. -/
def findSlot (hk : ℕ) (l : Level K V) (limit : ℕ) : Option ℕ := findSlotAux hk l 0 limit

/-- The inner probe loop of `Get` on one level:
`for j := range probeLimit { idx := probe(key, int64(j), size);
 if level[idx] == nil { continue } else if level[idx].key == key { return level[idx].value, true } }`. -/
def findKeyAux [DecidableEq K] (hk : ℕ) (k : K) (l : Level K V) : ℕ → ℕ → Option V
  | _, 0 => none
  | j, fuel + 1 =>
    match l.getD (probe hk j l.length) none with
    | some kv => if kv.1 = k then some kv.2 else findKeyAux hk k l (j + 1) fuel
    | none => findKeyAux hk k l (j + 1) fuel

/-- The probe loop of `Get` starting from attempt 0. -/
def findKey [DecidableEq K] (hk : ℕ) (k : K) (l : Level K V) (limit : ℕ) : Option V :=
  findKeyAux hk k l 0 limit

/-- `load := float64(freeOnLevel) / float64(size)`: `none` models the `NaN`
produced when `size = 0`; otherwise the exact rational value (negative when
`occ > size`, as in the source's `int` subtraction). -/
def loadOf (size occ : ℕ) : Option ℚ :=
  if size = 0 then none else some (((size : ℚ) - (occ : ℚ)) / (size : ℚ))

/-- Go float comparison `load > x` (false when `load` is `NaN`). -/
def loadGtB : Option ℚ → ℚ → Bool
  | none, _ => false
  | some v, x => decide (x < v)

/-- Go float comparison `load <= x` (false when `load` is `NaN`). -/
def loadLeB : Option ℚ → ℚ → Bool
  | none, _ => false
  | some v, x => decide (v ≤ x)

/-- The constant `threshold = 0.25` (exactly representable in `float64`). -/
def threshold : ℚ := 1 / 4

/-- `nextLoad`: `0` unless the next level is non-empty, in which case
`(len(nextLevel) - nextOccupancy) / len(nextLevel)` (source lines 103-107). -/
def nextLoadOf (nl : Level K V) (no : ℕ) : ℚ :=
  if 0 < nl.length then ((nl.length : ℚ) - (no : ℚ)) / (nl.length : ℚ) else 0

/-- The table: `capacity`, `delta`, `items`, the levels, the parallel
occupancy counters, and the tuning constant `c` (the source stores the
integer-valued `float64` 4). -/
structure HashTable (K V : Type) where
  capacity : ℕ
  delta : ℚ
  items : ℕ
  levels : List (Level K V)
  occupanciesByLevel : List ℕ
  c : ℕ
deriving DecidableEq

/-- The two error values `OutOfSpaceErr` and `FailedToInsertErr`. -/
inductive InsertError where
  | outOfSpace
  | failedToInsert
deriving DecidableEq

instance {e a : Type} [DecidableEq e] [DecidableEq a] : DecidableEq (Except e a) := fun x y =>
  match x, y with
  | .ok u, .ok w => if h : u = w then isTrue (by rw [h]) else isFalse (by simp [h])
  | .error u, .error w => if h : u = w then isTrue (by rw [h]) else isFalse (by simp [h])
  | .ok _, .error _ => isFalse (by simp)
  | .error _, .ok _ => isFalse (by simp)

/-- `maxLen() = ht.capacity - int(ht.delta*float64(ht.capacity))`; the `int`
conversion truncates toward zero, which for the non-negative `delta*capacity`
of every constructed table is the floor. -/
def maxLen (t : HashTable K V) : ℤ := (t.capacity : ℤ) - ⌊t.delta * (t.capacity : ℚ)⌋

/-- The level loop of `Insert` (source lines 95-142), acting on the parallel
lists of levels and occupancies.  Returns the updated lists on successful
placement, `none` when every level is skipped or exhausted.  For a non-last
level the decision policy is the source's three-way branch; placement failure
within a level falls through to the next level.  The mismatched-length
patterns are unreachable (the two slices always have equal length); the Go
code would panic there, modelled as `none`. -/
def insertLevels [DecidableEq K] (hk : ℕ) (delta : ℚ) (c : ℕ) (k : K) (v : V) :
    List (Level K V) → List ℕ → Option (List (Level K V) × List ℕ)
  | [], _ => none
  | _ :: _, [] => none
  | l :: rest, o :: os =>
    let limit := probeIters c delta l.length o
    let here := (findSlot hk l limit).map
      fun idx => (l.set idx (some (k, v)) :: rest, (o + 1) :: os)
    match rest, os with
    | [], _ => here
    | _ :: _, [] => none
    | nl :: _, no :: _ =>
      let deeper := (insertLevels hk delta c k v rest os).map
        fun p => (l :: p.1, o :: p.2)
      let load := loadOf l.length o
      if loadGtB load (delta / 2) && decide (threshold < nextLoadOf nl no) then
        here.orElse fun _ => deeper
      else if loadLeB load (delta / 2) then deeper
      else here.orElse fun _ => deeper

/-- `Insert` (source lines 91-144): the capacity guard, then the level loop;
all mutation happens at the successful placement, so an error returns the
caller's table unchanged. -/
def Insert [DecidableEq K] (hash : K → ℕ) (t : HashTable K V) (k : K) (v : V) :
    Except InsertError (HashTable K V) :=
  if maxLen t ≤ (t.items : ℤ) then .error .outOfSpace
  else
    match insertLevels (hash k) t.delta t.c k v t.levels t.occupanciesByLevel with
    | some p => .ok { t with levels := p.1, occupanciesByLevel := p.2, items := t.items + 1 }
    | none => .error .failedToInsert

/-- The level loop of `Get` (source lines 148-161): every level is scanned,
with the probe limit recomputed from the level's current occupancy. -/
def getLevels [DecidableEq K] (hk : ℕ) (k : K) (delta : ℚ) (c : ℕ) :
    List (Level K V) → List ℕ → Option V
  | [], _ => none
  | _ :: _, [] => none
  | l :: rest, o :: os =>
    match findKey hk k l (probeIters c delta l.length o) with
    | some v => some v
    | none => getLevels hk k delta c rest os

/-- `Get` (source lines 146-163); `none` models the `(zero value, false)`
return, `some v` models `(v, true)`. -/
def Get [DecidableEq K] (hash : K → ℕ) (t : HashTable K V) (k : K) : Option V :=
  getLevels (hash k) k t.delta t.c t.levels t.occupanciesByLevel

/-- `numLevels := math.Max(1, math.Floor(math.Log2(float64(ht.capacity))))`
(source line 66); for capacity 0 the float expression is `max(1, -Inf) = 1`. -/
def numLevels (capacity : ℕ) : ℕ := max 1 (flog2 capacity)

/-- The size loop of `clear` (source lines 69-73): `iters` iterations remain,
`i` is the current index, `rem` the running `remaining`;
`size := math.Max(1, math.Floor(remaining/math.Pow(2, numLevels-float64(i))))`.
All intermediate values are integer-valued, so the float arithmetic is exact;
`math.Floor` of the quotient is floor division (`Int.fdiv`). -/
def levelSizesAux (L : ℕ) : ℕ → ℕ → ℤ → List ℕ
  | 0, _, _ => []
  | iters + 1, i, rem =>
    let s : ℤ := max 1 (Int.fdiv rem (2 ^ (L - i)))
    s.toNat :: levelSizesAux L iters (i + 1) (rem - s)

/-- The sizes assigned by `clear` to levels `0 .. numLevels-2` (the loop
`for i := range int(numLevels - 1)` runs `numLevels - 1` times). -/
def levelSizes (capacity : ℕ) : List ℕ :=
  levelSizesAux (numLevels capacity) (numLevels capacity - 1) 0 (capacity : ℤ)

/-- The level array built by `clear` (source lines 74-79):
`make([][]*entry, numLevels)` creates `numLevels` nil slices and the loop
over `sizes` allocates only levels `0 .. numLevels-2`, so the last level
remains the empty (nil) slice. -/
def initLevels (K V : Type) (capacity : ℕ) : List (Level K V) :=
  ((levelSizes capacity).map fun s => List.replicate s none) ++ [[]]

/-- `NewHashTable` (source lines 54-63) followed by `clear`. -/
def NewHashTable (K V : Type) (capacity : ℕ) (delta : ℚ) : HashTable K V :=
  { capacity := capacity
    delta := delta
    items := 0
    levels := initLevels K V capacity
    occupanciesByLevel := List.replicate (numLevels capacity) 0
    c := 4 }

/-- A client-visible operation on the table. -/
inductive Op (K V : Type) where
  | ins (k : K) (v : V)
  | get (k : K)
deriving DecidableEq

/-- Caller-side semantics of one operation: `Insert` mutates the table only
on success (an error leaves it unchanged); `Get` performs no mutation. -/
def applyOp [DecidableEq K] (hash : K → ℕ) (t : HashTable K V) : Op K V → HashTable K V
  | .ins k v =>
    match Insert hash t k v with
    | .ok t2 => t2
    | .error _ => t
  | .get _ => t

/-- Run a sequence of operations against a table. -/
def run [DecidableEq K] (hash : K → ℕ) (t : HashTable K V) (ops : List (Op K V)) :
    HashTable K V :=
  ops.foldl (applyOp hash) t

/-- Number of occupied slots of a level. -/
def countSome (l : Level K V) : ℕ := l.countP fun s => s.isSome

/-- Structural well-formedness of a table: the occupancy slice is parallel to
the level slice, and each counter equals the number of occupied slots of its
level (out-of-range reads of both sides default to 0). -/
def WF (t : HashTable K V) : Prop :=
  t.occupanciesByLevel.length = t.levels.length ∧
  ∀ i, t.occupanciesByLevel.getD i 0 = countSome (t.levels.getD i [])

/-- The probe limit in force at level `i` of table `t`. -/
def levelLimit (t : HashTable K V) (i : ℕ) : ℕ :=
  probeIters t.c t.delta (t.levels.getD i []).length (t.occupanciesByLevel.getD i 0)

/-- Total number of slots allocated across all levels. -/
def totalSlots (t : HashTable K V) : ℕ := (t.levels.map List.length).sum

/-- Modelled from the spec and the Go standard library contract of
`hash/maphash` (not part of this repository): a zero-value `maphash.Hash`
chooses a fresh random seed for itself on first use (`MakeSeed`), and the
64-bit sum it produces depends on that seed.  The seed-dependent mixing is
modelled abstractly as an additive combination truncated to 64 bits; only
its dependence on the seed matters for the determinism claim. -/
def maphashSum64 (seed : ℕ) (data : ℕ) : ℕ := (seed + data) % 2 ^ 64

/-- One call of `HashKey` (source lines 26-37): a fresh zero `maphash.Hash`
is created, so the call's result is `maphashSum64` at a freshly drawn seed
applied to the encoded key bytes. -/
def HashKeyCall (seed : ℕ) (keyData : ℕ) : ℕ := maphashSum64 seed keyData

/-- Determinism of the hasher within one running instance: any two calls
(i.e. any two drawn seeds) agree on every key. -/
def DeterministicWithinInstance (f : ℕ → ℕ → ℕ) : Prop :=
  ∀ s1 s2 kd, f s1 kd = f s2 kd

/-! ### Arithmetic facts about `flog2` and `probeIters` -/

theorem flog2Aux_spec :
    ∀ (fuel n : ℕ), 1 ≤ n → n ≤ fuel →
      2 ^ flog2Aux fuel n ≤ n ∧ n < 2 ^ (flog2Aux fuel n + 1) := by
  intro fuel
  induction fuel with
  | zero => intro n h1 h2; omega
  | succ fuel ih =>
    intro n h1 h2
    by_cases hn : n ≤ 1
    · simp only [flog2Aux, if_pos hn]
      constructor
      · simpa using h1
      · have : n = 1 := by omega
        simp [this]
    · simp only [flog2Aux, if_neg hn]
      have hd1 : 1 ≤ n / 2 := by
        have := Nat.le_div_iff_mul_le (k := 2) (by norm_num) (x := n) (y := 1)
        omega
      have hlt : n / 2 < n := Nat.div_lt_self (by omega) one_lt_two
      have hd2 : n / 2 ≤ fuel := by omega
      obtain ⟨ha, hb⟩ := ih (n / 2) hd1 hd2
      have hmain := Nat.div_add_mod n 2
      have hmod : n % 2 < 2 := Nat.mod_lt _ (by norm_num)
      constructor
      · have : 2 ^ (flog2Aux fuel (n / 2) + 1) = 2 ^ flog2Aux fuel (n / 2) * 2 := by ring
        rw [this]
        have := Nat.mul_le_mul_right 2 ha
        omega
      · have : 2 ^ (flog2Aux fuel (n / 2) + 1 + 1) = 2 ^ (flog2Aux fuel (n / 2) + 1) * 2 := by
          ring
        rw [this]
        omega

theorem flog2_spec (n : ℕ) (h : 1 ≤ n) : 2 ^ flog2 n ≤ n ∧ n < 2 ^ (flog2 n + 1) :=
  flog2Aux_spec n n h le_rfl

theorem flog2_mono {m n : ℕ} (h : m ≤ n) : flog2 m ≤ flog2 n := by
  rcases Nat.eq_zero_or_pos m with hm | hm
  · subst hm; simp [flog2, flog2Aux]
  · have h1 := flog2_spec m hm
    have h2 := flog2_spec n (le_trans hm h)
    have : 2 ^ flog2 m < 2 ^ (flog2 n + 1) := by
      calc 2 ^ flog2 m ≤ m := h1.1
        _ ≤ n := h
        _ < 2 ^ (flog2 n + 1) := h2.2
    have := (Nat.pow_lt_pow_iff_right (by norm_num : 1 < 2)).mp this
    omega

theorem probeIters_zero_size (c : ℕ) (delta : ℚ) (occ : ℕ) :
    probeIters c delta 0 occ = 0 := by
  simp [probeIters]

theorem probeIters_mono (c : ℕ) (delta : ℚ) {S o o' : ℕ}
    (h1 : o ≤ o') (h2 : o' ≤ S) : probeIters c delta S o ≤ probeIters c delta S o' := by
  rcases Nat.eq_zero_or_pos S with hS | hS
  · subst hS
    have ho : o = 0 := by omega
    have ho' : o' = 0 := by omega
    subst ho; subst ho'
    exact le_rfl
  · have hne : S ≠ 0 := by omega
    have hno : ¬ S < o := by omega
    have hno' : ¬ S < o' := by omega
    by_cases hSo : S = o
    · have : o = o' := by omega
      subst this
      exact le_rfl
    · by_cases hSo' : S = o'
      · simp only [probeIters, if_neg hne, if_neg hno, if_neg hno', if_neg hSo, if_pos hSo']
        exact max_le_max le_rfl (min_le_right _ _)
      · simp only [probeIters, if_neg hne, if_neg hno, if_neg hno', if_neg hSo, if_neg hSo']
        have hpow : (S - o') ^ c ≤ (S - o) ^ c := Nat.pow_le_pow_left (by omega) c
        have hpos : 0 < (S - o') ^ c := pow_pos (by omega) c
        have hdiv : S ^ c / (S - o) ^ c ≤ S ^ c / (S - o') ^ c :=
          Nat.div_le_div_left hpow hpos
        exact max_le_max le_rfl (min_le_min (flog2_mono hdiv) le_rfl)

/-! ### List helpers -/

theorem getD_set_self {α : Type} (l : List α) :
    ∀ (i : ℕ) (a d : α), i < l.length → (l.set i a).getD i d = a := by
  induction l with
  | nil => intro i a d h; simp at h
  | cons x xs ih =>
    intro i a d h
    cases i with
    | zero => simp
    | succ n =>
      simp only [List.set_cons_succ, List.getD_cons_succ]
      exact ih n a d (by simpa using h)

theorem getD_set_ne {α : Type} (l : List α) :
    ∀ (i j : ℕ) (a d : α), i ≠ j → (l.set i a).getD j d = l.getD j d := by
  induction l with
  | nil => intro i j a d _; simp
  | cons x xs ih =>
    intro i j a d hne
    cases i with
    | zero =>
      cases j with
      | zero => exact absurd rfl hne
      | succ m => simp
    | succ n =>
      cases j with
      | zero => simp
      | succ m =>
        simp only [List.set_cons_succ, List.getD_cons_succ]
        exact ih n m a d (by omega)

theorem getD_replicate {α : Type} (a : α) :
    ∀ (n i : ℕ), (List.replicate n a).getD i a = a := by
  intro n
  induction n with
  | zero => intro i; simp
  | succ m ih =>
    intro i
    cases i with
    | zero => simp [List.replicate]
    | succ j =>
      simp only [List.replicate, List.getD_cons_succ]
      exact ih j

theorem countSome_le_length (l : Level K V) : countSome l ≤ l.length :=
  List.countP_le_length _

theorem countSome_replicate_none (n : ℕ) :
    countSome (List.replicate n (none : Slot K V)) = 0 := by
  induction n with
  | zero => rfl
  | succ m ih =>
    simp only [List.replicate, countSome, List.countP_cons] at ih ⊢
    simp [ih]

theorem countSome_set_some (l : Level K V) :
    ∀ (i : ℕ) (e : K × V), i < l.length → l.getD i none = none →
      countSome (l.set i (some e)) = countSome l + 1 := by
  induction l with
  | nil => intro i e h _; simp at h
  | cons x xs ih =>
    intro i e h hnone
    cases i with
    | zero =>
      have hx : x = none := by simpa using hnone
      subst hx
      simp [countSome, List.countP_cons]
    | succ n =>
      have h' : n < xs.length := by simpa using h
      have hnone' : xs.getD n none = none := by simpa using hnone
      simp only [List.set_cons_succ, countSome, List.countP_cons]
      have := ih n e h' hnone'
      simp only [countSome] at this
      omega

/-! ### The probe loops of `Insert` and `Get` -/

theorem findSlotAux_some {hk : ℕ} {l : Level K V} :
    ∀ {fuel j idx : ℕ}, findSlotAux hk l j fuel = some idx →
      l.getD idx none = none ∧ ∃ j', j ≤ j' ∧ j' < j + fuel ∧ idx = probe hk j' l.length := by
  intro fuel
  induction fuel with
  | zero => intro j idx h; simp [findSlotAux] at h
  | succ fuel ih =>
    intro j idx h
    by_cases hc : (l.getD (probe hk j l.length) none).isNone
    · simp only [findSlotAux, if_pos hc, Option.some.injEq] at h
      subst h
      exact ⟨Option.isNone_iff_eq_none.mp hc, j, le_rfl, by omega, rfl⟩
    · simp only [findSlotAux, if_neg hc] at h
      obtain ⟨h1, j', hj1, hj2, hj3⟩ := ih h
      exact ⟨h1, j', by omega, by omega, hj3⟩

theorem findKeyAux_some [DecidableEq K] {hk : ℕ} {k : K} {l : Level K V} :
    ∀ {fuel j : ℕ} {v : V}, findKeyAux hk k l j fuel = some v →
      ∃ j', j ≤ j' ∧ j' < j + fuel ∧ l.getD (probe hk j' l.length) none = some (k, v) := by
  intro fuel
  induction fuel with
  | zero => intro j v h; simp [findKeyAux] at h
  | succ fuel ih =>
    intro j v h
    rcases hslot : l.getD (probe hk j l.length) none with _ | kv
    · rw [findKeyAux, hslot] at h
      obtain ⟨j', hj1, hj2, hj3⟩ := ih h
      exact ⟨j', by omega, by omega, hj3⟩
    · rw [findKeyAux, hslot] at h
      dsimp only at h
      by_cases hkk : kv.1 = k
      · rw [if_pos hkk, Option.some.injEq] at h
        refine ⟨j, le_rfl, by omega, ?_⟩
        rw [hslot]
        have : kv = (k, v) := by
          rcases kv with ⟨k0, v0⟩
          simp only at hkk h
          simp [hkk, h]
        rw [this]
      · rw [if_neg hkk] at h
        obtain ⟨j', hj1, hj2, hj3⟩ := ih h
        exact ⟨j', by omega, by omega, hj3⟩

theorem findKeyAux_isSome [DecidableEq K] {hk : ℕ} {k : K} {l : Level K V} :
    ∀ {fuel j : ℕ},
      (∃ j' w, j ≤ j' ∧ j' < j + fuel ∧ l.getD (probe hk j' l.length) none = some (k, w)) →
      (findKeyAux hk k l j fuel).isSome := by
  intro fuel
  induction fuel with
  | zero => rintro j ⟨j', w, hj1, hj2, _⟩; omega
  | succ fuel ih =>
    rintro j ⟨j', w, hj1, hj2, hs⟩
    rcases hslot : l.getD (probe hk j l.length) none with _ | kv
    · have hne : j' ≠ j := by
        intro he
        subst he
        rw [hs] at hslot
        cases hslot
      rw [findKeyAux, hslot]
      exact ih ⟨j', w, by omega, by omega, hs⟩
    · rw [findKeyAux, hslot]
      dsimp only
      by_cases hkk : kv.1 = k
      · rw [if_pos hkk]
        simp
      · rw [if_neg hkk]
        have hne : j' ≠ j := by
          intro he
          subst he
          rw [hs] at hslot
          simp only [Option.some.injEq] at hslot
          exact hkk (by rw [← hslot])
        exact ih ⟨j', w, by omega, by omega, hs⟩

/-! ### Unfolding equations for the level loops -/

theorem insertLevels_nil [DecidableEq K] (hk : ℕ) (delta : ℚ) (c : ℕ) (k : K) (v : V)
    (os : List ℕ) : insertLevels hk delta c k v [] os = none := rfl

theorem insertLevels_cons_nilOcc [DecidableEq K] (hk : ℕ) (delta : ℚ) (c : ℕ) (k : K) (v : V)
    (l : Level K V) (rest : List (Level K V)) :
    insertLevels hk delta c k v (l :: rest) [] = none := rfl

theorem insertLevels_single [DecidableEq K] (hk : ℕ) (delta : ℚ) (c : ℕ) (k : K) (v : V)
    (l : Level K V) (o : ℕ) (os : List ℕ) :
    insertLevels hk delta c k v [l] (o :: os) =
      (findSlot hk l (probeIters c delta l.length o)).map
        (fun idx => ([l.set idx (some (k, v))], (o + 1) :: os)) := rfl

theorem insertLevels_cons_nilOcc' [DecidableEq K] (hk : ℕ) (delta : ℚ) (c : ℕ) (k : K) (v : V)
    (l nl : Level K V) (rest : List (Level K V)) (o : ℕ) :
    insertLevels hk delta c k v (l :: nl :: rest) [o] = none := rfl

theorem insertLevels_cons₂ [DecidableEq K] (hk : ℕ) (delta : ℚ) (c : ℕ) (k : K) (v : V)
    (l nl : Level K V) (rest : List (Level K V)) (o no : ℕ) (os : List ℕ) :
    insertLevels hk delta c k v (l :: nl :: rest) (o :: no :: os) =
      if loadGtB (loadOf l.length o) (delta / 2) && decide (threshold < nextLoadOf nl no) then
        ((findSlot hk l (probeIters c delta l.length o)).map
          (fun idx => (l.set idx (some (k, v)) :: nl :: rest, (o + 1) :: no :: os))).orElse
          (fun _ => (insertLevels hk delta c k v (nl :: rest) (no :: os)).map
            (fun p => (l :: p.1, o :: p.2)))
      else if loadLeB (loadOf l.length o) (delta / 2) then
        (insertLevels hk delta c k v (nl :: rest) (no :: os)).map
          (fun p => (l :: p.1, o :: p.2))
      else
        ((findSlot hk l (probeIters c delta l.length o)).map
          (fun idx => (l.set idx (some (k, v)) :: nl :: rest, (o + 1) :: no :: os))).orElse
          (fun _ => (insertLevels hk delta c k v (nl :: rest) (no :: os)).map
            (fun p => (l :: p.1, o :: p.2))) := rfl

theorem getLevels_cons [DecidableEq K] (hk : ℕ) (k : K) (delta : ℚ) (c : ℕ)
    (l : Level K V) (rest : List (Level K V)) (o : ℕ) (os : List ℕ) :
    getLevels hk k delta c (l :: rest) (o :: os) =
      match findKey hk k l (probeIters c delta l.length o) with
      | some v => some v
      | none => getLevels hk k delta c rest os := rfl

/-! ### Structure of a successful insertion -/

theorem insertLevels_head_case [DecidableEq K] {hk : ℕ} {delta : ℚ} {c : ℕ} (k : K) (v : V)
    (l : Level K V) (rest : List (Level K V)) (o : ℕ) (os : List ℕ) {idx : ℕ}
    (hfind : findSlot hk l (probeIters c delta l.length o) = some idx) :
    ∃ i idx' j, i < (l :: rest).length ∧ i < (o :: os : List ℕ).length ∧
      idx' < ((l :: rest).getD i []).length ∧
      l.set idx (some (k, v)) :: rest =
        (l :: rest).set i (((l :: rest).getD i []).set idx' (some (k, v))) ∧
      ((o + 1) :: os : List ℕ) = (o :: os).set i ((o :: os).getD i 0 + 1) ∧
      ((l :: rest).getD i []).getD idx' none = none ∧
      j < probeIters c delta ((l :: rest).getD i []).length ((o :: os : List ℕ).getD i 0) ∧
      idx' = probe hk j ((l :: rest).getD i []).length := by
  obtain ⟨hnone, j, hj0, hjlt, hidx⟩ := findSlotAux_some hfind
  have hlpos : 0 < l.length := by
    rcases Nat.eq_zero_or_pos l.length with h0 | h0
    · rw [h0, probeIters_zero_size] at hfind
      simp [findSlot, findSlotAux] at hfind
    · exact h0
  have hidxlt : idx < l.length := by
    rw [hidx]
    exact Nat.mod_lt _ hlpos
  refine ⟨0, idx, j, by simp, by simp, by simpa using hidxlt, by simp, by simp,
    by simpa using hnone, by simpa using hjlt, by simpa using hidx⟩

theorem insertLevels_some [DecidableEq K] {hk : ℕ} {delta : ℚ} {c : ℕ} {k : K} {v : V} :
    ∀ {ls : List (Level K V)} {os : List ℕ} {ls' : List (Level K V)} {os' : List ℕ},
      insertLevels hk delta c k v ls os = some (ls', os') →
      ∃ i idx j, i < ls.length ∧ i < os.length ∧ idx < (ls.getD i []).length ∧
        ls' = ls.set i ((ls.getD i []).set idx (some (k, v))) ∧
        os' = os.set i (os.getD i 0 + 1) ∧
        (ls.getD i []).getD idx none = none ∧
        j < probeIters c delta (ls.getD i []).length (os.getD i 0) ∧
        idx = probe hk j (ls.getD i []).length := by
  intro ls
  induction ls with
  | nil => intro os ls' os' h; rw [insertLevels_nil] at h; cases h
  | cons l rest ih =>
    intro os lsOut osOut h
    cases os with
    | nil => rw [insertLevels_cons_nilOcc] at h; cases h
    | cons o osTail =>
      cases rest with
      | nil =>
        rw [insertLevels_single] at h
        rcases hfind : findSlot hk l (probeIters c delta l.length o) with _ | idx
        · rw [hfind] at h; cases h
        · rw [hfind] at h
          simp only [Option.map_some', Option.some.injEq] at h
          injection h with h1 h2
          subst h1; subst h2
          exact insertLevels_head_case k v l [] o osTail hfind
      | cons nl rest' =>
        cases osTail with
        | nil => rw [insertLevels_cons_nilOcc'] at h; cases h
        | cons no os2 =>
          have hcases :
              (∃ idx, findSlot hk l (probeIters c delta l.length o) = some idx ∧
                (l.set idx (some (k, v)) :: nl :: rest', (o + 1) :: no :: os2) = (lsOut, osOut))
              ∨ (insertLevels hk delta c k v (nl :: rest') (no :: os2)).map
                  (fun p => (l :: p.1, o :: p.2)) = some (lsOut, osOut) := by
            rw [insertLevels_cons₂] at h
            split at h
            · rcases hfind : findSlot hk l (probeIters c delta l.length o) with _ | idx
              · rw [hfind] at h
                right
                simpa [Option.orElse] using h
              · rw [hfind] at h
                left
                exact ⟨idx, rfl, by simpa [Option.orElse] using h⟩
            · split at h
              · right; exact h
              · rcases hfind : findSlot hk l (probeIters c delta l.length o) with _ | idx
                · rw [hfind] at h
                  right
                  simpa [Option.orElse] using h
                · rw [hfind] at h
                  left
                  exact ⟨idx, rfl, by simpa [Option.orElse] using h⟩
          rcases hcases with ⟨idx, hfind, heq⟩ | hdeep
          · injection heq with h1 h2
            subst h1; subst h2
            exact insertLevels_head_case k v l (nl :: rest') o (no :: os2) hfind
          · rcases hrec : insertLevels hk delta c k v (nl :: rest') (no :: os2) with _ | p
            · rw [hrec] at hdeep; cases hdeep
            · rw [hrec] at hdeep
              simp only [Option.map_some', Option.some.injEq] at hdeep
              injection hdeep with h1 h2
              subst h1; subst h2
              obtain ⟨i, idx, j, hi1, hi2, hlt, he1, he2, hn, hj, hp⟩ := ih hrec
              refine ⟨i + 1, idx, j, by simpa using hi1, by simpa using hi2, ?_, ?_, ?_, ?_, ?_, ?_⟩
              · simpa using hlt
              · simp only [List.set_cons_succ, List.getD_cons_succ]
                rw [← he1]
              · simp only [List.set_cons_succ, List.getD_cons_succ]
                rw [← he2]
              · simpa using hn
              · simpa using hj
              · simpa using hp

/-! ### Table-level characterisation of a successful `Insert` -/

theorem Insert_ok [DecidableEq K] {hash : K → ℕ} {t t' : HashTable K V} {k : K} {v : V}
    (h : Insert hash t k v = .ok t') :
    t'.capacity = t.capacity ∧ t'.delta = t.delta ∧ t'.c = t.c ∧ t'.items = t.items + 1 ∧
    ∃ i idx j, i < t.levels.length ∧ i < t.occupanciesByLevel.length ∧
      idx < (t.levels.getD i []).length ∧
      t'.levels = t.levels.set i ((t.levels.getD i []).set idx (some (k, v))) ∧
      t'.occupanciesByLevel =
        t.occupanciesByLevel.set i (t.occupanciesByLevel.getD i 0 + 1) ∧
      (t.levels.getD i []).getD idx none = none ∧
      j < probeIters t.c t.delta (t.levels.getD i []).length
            (t.occupanciesByLevel.getD i 0) ∧
      idx = probe (hash k) j (t.levels.getD i []).length := by
  rw [Insert] at h
  split at h
  · cases h
  · rcases hmatch : insertLevels (hash k) t.delta t.c k v t.levels t.occupanciesByLevel
      with _ | p
    · rw [hmatch] at h; cases h
    · rw [hmatch] at h
      rcases p with ⟨ls2, os2⟩
      injection h with h'
      subst h'
      obtain ⟨i, idx, j, hi1, hi2, hidx, he1, he2, hn, hj, hp⟩ := insertLevels_some hmatch
      exact ⟨rfl, rfl, rfl, rfl, i, idx, j, hi1, hi2, hidx, he1, he2, hn, hj, hp⟩

/-! ### Preservation of well-formedness -/

theorem countSome_getD_zero (ls : List (Level K V)) (h : ∀ l ∈ ls, countSome l = 0) :
    ∀ i, countSome (ls.getD i []) = 0 := by
  induction ls with
  | nil => intro i; rfl
  | cons x xs ih =>
    intro i
    cases i with
    | zero => exact h x (by simp)
    | succ i' =>
      simp only [List.getD_cons_succ]
      exact ih (fun l hl => h l (by simp [hl])) i'

theorem initLevels_countSome (cap : ℕ) :
    ∀ l ∈ initLevels K V cap, countSome l = 0 := by
  intro l hl
  rcases List.mem_append.mp hl with hm | hm
  · obtain ⟨s, _, rfl⟩ := List.mem_map.mp hm
    exact countSome_replicate_none s
  · have : l = [] := by simpa using hm
    subst this
    rfl

theorem levelSizesAux_length (L : ℕ) :
    ∀ (iters i : ℕ) (rem : ℤ), (levelSizesAux L iters i rem).length = iters := by
  intro iters
  induction iters with
  | zero => intro i rem; rfl
  | succ n ih => intro i rem; simp [levelSizesAux, ih]

theorem initLevels_length (cap : ℕ) :
    (initLevels K V cap).length = numLevels cap := by
  have h1 : (levelSizes cap).length = numLevels cap - 1 := by
    simp [levelSizes, levelSizesAux_length]
  have h2 : 1 ≤ numLevels cap := le_max_left 1 _
  simp only [initLevels, List.length_append, List.length_map, h1]
  simp
  omega

theorem WF_new (cap : ℕ) (delta : ℚ) : WF (NewHashTable K V cap delta) := by
  constructor
  · simp [NewHashTable, initLevels_length]
  · intro i
    have h1 : (List.replicate (numLevels cap) 0).getD i 0 = 0 := getD_replicate 0 _ i
    simp only [NewHashTable] at *
    rw [h1, countSome_getD_zero _ (initLevels_countSome cap) i]

theorem WF_insert_ok [DecidableEq K] {hash : K → ℕ} {t t' : HashTable K V} {k : K} {v : V}
    (hwf : WF t) (h : Insert hash t k v = .ok t') : WF t' := by
  obtain ⟨-, -, -, -, i, idx, j, hi1, hi2, hidx, hlev, hocc, hnone, -, -⟩ := Insert_ok h
  constructor
  · rw [hlev, hocc]
    simp [List.length_set, hwf.1]
  · intro i'
    rw [hlev, hocc]
    by_cases hii : i = i'
    · subst hii
      rw [getD_set_self _ i _ _ hi2, getD_set_self _ i _ _ hi1,
        countSome_set_some _ idx _ hidx hnone, hwf.2 i]
    · rw [getD_set_ne _ i i' _ _ hii, getD_set_ne _ i i' _ _ hii, hwf.2 i']

theorem WF_applyOp [DecidableEq K] (hash : K → ℕ) (t : HashTable K V) (op : Op K V)
    (hwf : WF t) : WF (applyOp hash t op) := by
  cases op with
  | get _ => exact hwf
  | ins k v =>
    simp only [applyOp]
    rcases hins : Insert hash t k v with e | t2
    · exact hwf
    · exact WF_insert_ok hwf hins

theorem WF_run [DecidableEq K] (hash : K → ℕ) (ops : List (Op K V)) :
    ∀ t : HashTable K V, WF t → WF (run hash t ops) := by
  induction ops with
  | nil => intro t hwf; exact hwf
  | cons op ops ih =>
    intro t hwf
    rw [run, List.foldl_cons]
    exact ih _ (WF_applyOp hash t op hwf)

/-! ### Monotone evolution of a table under client operations -/

def Evol (t t' : HashTable K V) : Prop :=
  t'.capacity = t.capacity ∧ t'.delta = t.delta ∧ t'.c = t.c ∧
  t'.levels.length = t.levels.length ∧
  (∀ i, (t'.levels.getD i []).length = (t.levels.getD i []).length) ∧
  (∀ i, t.occupanciesByLevel.getD i 0 ≤ t'.occupanciesByLevel.getD i 0) ∧
  (∀ i idx e, (t.levels.getD i []).getD idx none = some e →
      (t'.levels.getD i []).getD idx none = some e)

theorem Evol_refl (t : HashTable K V) : Evol t t :=
  ⟨rfl, rfl, rfl, rfl, fun _ => rfl, fun _ => le_rfl, fun _ _ _ h => h⟩

theorem Evol_trans {t1 t2 t3 : HashTable K V} (h1 : Evol t1 t2) (h2 : Evol t2 t3) :
    Evol t1 t3 := by
  obtain ⟨a1, b1, c1, d1, e1, f1, g1⟩ := h1
  obtain ⟨a2, b2, c2, d2, e2, f2, g2⟩ := h2
  exact ⟨a2.trans a1, b2.trans b1, c2.trans c1, d2.trans d1,
    fun i => (e2 i).trans (e1 i), fun i => (f1 i).trans (f2 i),
    fun i idx e h => g2 i idx e (g1 i idx e h)⟩

theorem Evol_insert_ok [DecidableEq K] {hash : K → ℕ} {t t' : HashTable K V} {k : K} {v : V}
    (h : Insert hash t k v = .ok t') : Evol t t' := by
  obtain ⟨hcap, hd, hc, -, i, idx, j, hi1, hi2, hidx, hlev, hocc, hnone, -, -⟩ := Insert_ok h
  refine ⟨hcap, hd, hc, ?_, ?_, ?_, ?_⟩
  · rw [hlev]; exact List.length_set _ _ _
  · intro i'
    rw [hlev]
    by_cases hii : i = i'
    · subst hii
      rw [getD_set_self _ i _ _ hi1, List.length_set]
    · rw [getD_set_ne _ i i' _ _ hii]
  · intro i'
    rw [hocc]
    by_cases hii : i = i'
    · subst hii
      rw [getD_set_self _ i _ _ hi2]
      omega
    · rw [getD_set_ne _ i i' _ _ hii]
  · intro i' idx' e hsome
    rw [hlev]
    by_cases hii : i = i'
    · subst hii
      rw [getD_set_self _ i _ _ hi1]
      by_cases hxx : idx = idx'
      · subst hxx
        rw [hnone] at hsome
        cases hsome
      · rw [getD_set_ne _ idx idx' _ _ hxx]
        exact hsome
    · rw [getD_set_ne _ i i' _ _ hii]
      exact hsome

theorem Evol_applyOp [DecidableEq K] (hash : K → ℕ) (t : HashTable K V) (op : Op K V) :
    Evol t (applyOp hash t op) := by
  cases op with
  | get _ => exact Evol_refl t
  | ins k v =>
    simp only [applyOp]
    rcases hins : Insert hash t k v with e | t2
    · exact Evol_refl t
    · exact Evol_insert_ok hins

theorem Evol_run [DecidableEq K] (hash : K → ℕ) (ops : List (Op K V)) :
    ∀ t : HashTable K V, Evol t (run hash t ops) := by
  induction ops with
  | nil => intro t; exact Evol_refl t
  | cons op ops ih =>
    intro t
    rw [run, List.foldl_cons]
    exact Evol_trans (Evol_applyOp hash t op) (ih (applyOp hash t op))

/-! ### Provenance: every occupied slot was written by some insertion -/

def SlotIn (t : HashTable K V) (k : K) (v : V) : Prop :=
  ∃ i idx, (t.levels.getD i []).getD idx none = some (k, v)

theorem getD_eq_none_of_countSome_zero :
    ∀ (l : Level K V), countSome l = 0 → ∀ idx, l.getD idx none = none := by
  intro l
  induction l with
  | nil => intro _ idx; rfl
  | cons x xs ih =>
    intro h idx
    have hx : x.isSome = false ∧ countSome xs = 0 := by
      simp only [countSome, List.countP_cons] at h
      cases hb : x.isSome
      · rw [hb] at h
        simp at h
        exact ⟨rfl, by simpa [countSome] using h⟩
      · rw [hb] at h
        simp at h
    cases idx with
    | zero =>
      simp only [List.getD_cons_zero]
      exact Option.not_isSome_iff_eq_none.mp (by simp [hx.1])
    | succ n =>
      simp only [List.getD_cons_succ]
      exact ih hx.2 n

theorem SlotIn_new (cap : ℕ) (delta : ℚ) (k : K) (v : V) :
    ¬ SlotIn (NewHashTable K V cap delta) k v := by
  rintro ⟨i, idx, h⟩
  dsimp only [NewHashTable] at h
  rw [getD_eq_none_of_countSome_zero _
    (countSome_getD_zero _ (initLevels_countSome cap) i) idx] at h
  cases h

theorem SlotIn_insert_ok [DecidableEq K] {hash : K → ℕ} {t t' : HashTable K V}
    {k v k' v'} (h : Insert hash t k v = .ok t') (hs : SlotIn t' k' v') :
    SlotIn t k' v' ∨ (k' = k ∧ v' = v) := by
  obtain ⟨-, -, -, -, i, idx, j, hi1, hi2, hidx, hlev, hocc, hnone, -, -⟩ := Insert_ok h
  obtain ⟨i', idx', hslot⟩ := hs
  rw [hlev] at hslot
  by_cases hii : i = i'
  · subst hii
    rw [getD_set_self _ i _ _ hi1] at hslot
    by_cases hxx : idx = idx'
    · subst hxx
      rw [getD_set_self _ idx _ _ hidx] at hslot
      right
      injection hslot with h0
      exact ⟨congrArg Prod.fst h0.symm, congrArg Prod.snd h0.symm⟩
    · rw [getD_set_ne _ idx idx' _ _ hxx] at hslot
      exact Or.inl ⟨i, idx', hslot⟩
  · rw [getD_set_ne _ i i' _ _ hii] at hslot
    exact Or.inl ⟨i', idx', hslot⟩

theorem SlotIn_applyOp [DecidableEq K] {hash : K → ℕ} {t : HashTable K V} {op : Op K V}
    {k' v'} (hs : SlotIn (applyOp hash t op) k' v') :
    SlotIn t k' v' ∨ op = Op.ins k' v' := by
  cases op with
  | get _ => exact Or.inl hs
  | ins k v =>
    simp only [applyOp] at hs
    rcases hins : Insert hash t k v with e | t2
    · rw [hins] at hs
      exact Or.inl hs
    · rw [hins] at hs
      rcases SlotIn_insert_ok hins hs with h | ⟨rfl, rfl⟩
      · exact Or.inl h
      · exact Or.inr rfl

theorem SlotIn_run [DecidableEq K] {hash : K → ℕ} (ops : List (Op K V)) :
    ∀ {t : HashTable K V} {k' v'}, SlotIn (run hash t ops) k' v' →
      SlotIn t k' v' ∨ Op.ins k' v' ∈ ops := by
  induction ops with
  | nil => intro t k' v' hs; exact Or.inl hs
  | cons op ops ih =>
    intro t k' v' hs
    rw [run, List.foldl_cons] at hs
    rcases ih hs with h | h
    · rcases SlotIn_applyOp h with h' | h'
      · exact Or.inl h'
      · exact Or.inr (by simp [h'])
    · exact Or.inr (by simp [h])

/-! ### Soundness and completeness of the lookup loop -/

theorem getLevels_nil [DecidableEq K] (hk : ℕ) (k : K) (delta : ℚ) (c : ℕ) (os : List ℕ) :
    getLevels hk k delta c ([] : List (Level K V)) os = none := rfl

theorem getLevels_cons_nilOcc [DecidableEq K] (hk : ℕ) (k : K) (delta : ℚ) (c : ℕ)
    (l : Level K V) (rest : List (Level K V)) :
    getLevels hk k delta c (l :: rest) [] = none := rfl

theorem getLevels_some [DecidableEq K] {hk : ℕ} {k : K} {delta : ℚ} {c : ℕ} :
    ∀ {ls : List (Level K V)} {os : List ℕ} {v : V},
      getLevels hk k delta c ls os = some v →
      ∃ i idx, (ls.getD i []).getD idx none = some (k, v) := by
  intro ls
  induction ls with
  | nil => intro os v h; rw [getLevels_nil] at h; cases h
  | cons l rest ih =>
    intro os v h
    cases os with
    | nil => rw [getLevels_cons_nilOcc] at h; cases h
    | cons o osT =>
      rw [getLevels_cons] at h
      rcases hfk : findKey hk k l (probeIters c delta l.length o) with _ | w
      · rw [hfk] at h
        dsimp only at h
        obtain ⟨i, idx, hs⟩ := ih h
        exact ⟨i + 1, idx, by simpa using hs⟩
      · rw [hfk] at h
        dsimp only at h
        injection h with h0
        subst h0
        obtain ⟨j', hj0, hj1, hslot⟩ := findKeyAux_some hfk
        exact ⟨0, probe hk j' l.length, by simpa using hslot⟩

theorem getLevels_isSome [DecidableEq K] {hk : ℕ} {k : K} {delta : ℚ} {c : ℕ} :
    ∀ {ls : List (Level K V)} {os : List ℕ} (i : ℕ),
      i < ls.length → i < os.length →
      (∃ j w, j < probeIters c delta (ls.getD i []).length (os.getD i 0) ∧
        (ls.getD i []).getD (probe hk j (ls.getD i []).length) none = some (k, w)) →
      (getLevels hk k delta c ls os).isSome := by
  intro ls
  induction ls with
  | nil => intro os i h1 _ _; simp at h1
  | cons l rest ih =>
    intro os i h1 h2 hex
    cases os with
    | nil => simp at h2
    | cons o osT =>
      rw [getLevels_cons]
      rcases hfk : findKey hk k l (probeIters c delta l.length o) with _ | w
      · cases i with
        | zero =>
          exfalso
          obtain ⟨j, w, hj, hslot⟩ := hex
          have hsome : (findKeyAux hk k l 0 (probeIters c delta l.length o)).isSome :=
            findKeyAux_isSome ⟨j, w, Nat.zero_le j, by simpa using hj, by simpa using hslot⟩
          simp only [findKey] at hfk
          rw [hfk] at hsome
          simp at hsome
        | succ i' =>
          dsimp only
          apply ih i'
          · simpa using h1
          · simpa using h2
          · obtain ⟨j, w, hj, hs⟩ := hex
            exact ⟨j, w, by simpa using hj, by simpa using hs⟩
      · simp

/-! ### The logical capacity bound -/

theorem insert_guard_lt [DecidableEq K] {hash : K → ℕ} {t t' : HashTable K V} {k : K} {v : V}
    (h : Insert hash t k v = .ok t') : (t.items : ℤ) < maxLen t := by
  by_contra hc
  rw [Insert, if_pos (by omega : maxLen t ≤ (t.items : ℤ))] at h
  cases h

theorem items_le_maxLen_applyOp [DecidableEq K] {hash : K → ℕ} {t : HashTable K V}
    (op : Op K V) (h : (t.items : ℤ) ≤ maxLen t) :
    (((applyOp hash t op).items : ℤ)) ≤ maxLen (applyOp hash t op) := by
  cases op with
  | get _ => exact h
  | ins k v =>
    simp only [applyOp]
    rcases hins : Insert hash t k v with e | t2
    · exact h
    · have hlt := insert_guard_lt hins
      obtain ⟨hcap, hd, -, hitems, -⟩ := Insert_ok hins
      have hm : maxLen t2 = maxLen t := by simp [maxLen, hcap, hd]
      rw [hm, hitems]
      push_cast
      omega

theorem items_le_maxLen_run [DecidableEq K] (hash : K → ℕ) (ops : List (Op K V)) :
    ∀ t : HashTable K V, (t.items : ℤ) ≤ maxLen t →
      (((run hash t ops).items : ℤ)) ≤ maxLen (run hash t ops) := by
  induction ops with
  | nil => intro t h; exact h
  | cons op ops ih =>
    intro t h
    rw [run, List.foldl_cons]
    exact ih _ (items_le_maxLen_applyOp op h)

theorem maxLen_new_nonneg (cap : ℕ) {delta : ℚ} (h1 : delta < 1) :
    (0 : ℤ) ≤ maxLen (NewHashTable K V cap delta) := by
  have hmul : delta * (cap : ℚ) ≤ ((cap : ℕ) : ℚ) :=
    mul_le_of_le_one_left (by positivity) h1.le
  have hfl : ⌊delta * (cap : ℚ)⌋ ≤ (cap : ℤ) := by
    have := Int.floor_le_floor hmul
    simpa using this
  simp only [maxLen, NewHashTable]
  omega

/-! ### Claim theorems -/

/-- Lookup reachability of the table logic under a per-instance-stable
hasher: when the same hash function governs every probe (the behaviour the
spec intends for `HashKey`, obtained once the per-call seeding defect
recorded at C2 is repaired), a successful `Insert(k, v)` makes every
subsequent `Get(k)` (after arbitrary further operations; no delete exists)
return some value previously written under `k`, and exactly `v` when `k`
was inserted once.  This is not the verdict on C1: the shipped `HashKey`
re-hashes under a fresh random seed on every call, and the program then
violates C1 (see `get_can_miss_inserted_key_across_reseeded_calls`). -/
theorem insert_then_get_finds_fixed_hasher [DecidableEq K] (hash : K → ℕ) (cap : ℕ) (delta : ℚ)
    (ops1 : List (Op K V)) (k : K) (v : V) (t2 : HashTable K V) (ops2 : List (Op K V))
    (hins : Insert hash (run hash (NewHashTable K V cap delta) ops1) k v = .ok t2) :
    ∃ v', Get hash (run hash t2 ops2) k = some v' ∧
      (v' = v ∨ Op.ins k v' ∈ ops1 ∨ Op.ins k v' ∈ ops2) ∧
      ((∀ w, Op.ins k w ∉ ops1 ∧ Op.ins k w ∉ ops2) → v' = v) := by
  set t0 := NewHashTable K V cap delta with ht0
  set t1 := run hash t0 ops1 with ht1
  set t3 := run hash t2 ops2 with ht3
  have hwf1 : WF t1 := WF_run hash ops1 t0 (WF_new cap delta)
  have hwf2 : WF t2 := WF_insert_ok hwf1 hins
  have hwf3 : WF t3 := WF_run hash ops2 t2 hwf2
  obtain ⟨hcap21, hd21, hc21, hitems, i, idx, j, hi1, hi2, hidx, hlev, hocc, hnone, hj, hp⟩ :=
    Insert_ok hins
  have hev32 : Evol t2 t3 := by
    rw [ht3]
    exact Evol_run hash ops2 t2
  obtain ⟨hcap32, hd32, hc32, hlen32, hlev32, hocc32, hpers32⟩ := hev32
  have hslot2 : (t2.levels.getD i []).getD idx none = some (k, v) := by
    rw [hlev, getD_set_self _ i _ _ hi1, getD_set_self _ idx _ _ hidx]
  have hslot3 : (t3.levels.getD i []).getD idx none = some (k, v) := hpers32 i idx _ hslot2
  have hsize2 : (t2.levels.getD i []).length = (t1.levels.getD i []).length := by
    rw [hlev, getD_set_self _ i _ _ hi1, List.length_set]
  have hsize3 : (t3.levels.getD i []).length = (t1.levels.getD i []).length := by
    rw [hlev32 i, hsize2]
  have hocc2 : t2.occupanciesByLevel.getD i 0 = t1.occupanciesByLevel.getD i 0 + 1 := by
    rw [hocc, getD_set_self _ i _ _ hi2]
  have hocc3 : t1.occupanciesByLevel.getD i 0 < t3.occupanciesByLevel.getD i 0 := by
    have := hocc32 i
    omega
  have hocc3le : t3.occupanciesByLevel.getD i 0 ≤ (t3.levels.getD i []).length := by
    rw [hwf3.2 i]
    exact countSome_le_length _
  have hdelta : t3.delta = t1.delta := by rw [hd32, hd21]
  have hcc : t3.c = t1.c := by rw [hc32, hc21]
  have hmono : probeIters t1.c t1.delta (t1.levels.getD i []).length
        (t1.occupanciesByLevel.getD i 0)
      ≤ probeIters t1.c t1.delta (t1.levels.getD i []).length
        (t3.occupanciesByLevel.getD i 0) := by
    apply probeIters_mono _ _ (by omega)
    rw [← hsize3]
    exact hocc3le
  have hi3 : i < t3.levels.length := by
    rw [hlen32, hlev, List.length_set]
    exact hi1
  have hi3o : i < t3.occupanciesByLevel.length := by
    rw [hwf3.1]
    exact hi3
  have hfound : (getLevels (hash k) k t3.delta t3.c t3.levels t3.occupanciesByLevel).isSome := by
    apply getLevels_isSome i hi3 hi3o
    refine ⟨j, v, ?_, ?_⟩
    · rw [hdelta, hcc, hsize3]
      exact lt_of_lt_of_le hj hmono
    · rw [hsize3, ← hp]
      exact hslot3
  obtain ⟨v', hv'⟩ := Option.isSome_iff_exists.mp hfound
  have hget : Get hash t3 k = some v' := hv'
  have hsv : SlotIn t3 k v' := by
    obtain ⟨i0, idx0, h0⟩ := getLevels_some hv'
    exact ⟨i0, idx0, h0⟩
  have hprov : v' = v ∨ Op.ins k v' ∈ ops1 ∨ Op.ins k v' ∈ ops2 := by
    rcases SlotIn_run ops2 hsv with h2' | h2'
    · rcases SlotIn_insert_ok hins h2' with h1' | ⟨-, hvv⟩
      · rcases SlotIn_run ops1 h1' with h0' | h0'
        · exact absurd h0' (SlotIn_new cap delta k v')
        · exact Or.inr (Or.inl h0')
      · exact Or.inl hvv
    · exact Or.inr (Or.inr h2')
  refine ⟨v', hget, hprov, ?_⟩
  intro hone
  rcases hprov with h | h | h
  · exact h
  · exact absurd h (hone v').1
  · exact absurd h (hone v').2

/-- Concrete instance of the fixed-hasher reachability property: inserting
key 5 with value 42 into a fresh capacity-10, delta-1/10 table succeeds, and
the subsequent lookup under the same hash function returns 42. -/
theorem insert_then_get_finds_fixed_hasher_example :
    ∃ v', Get (fun n : ℕ => n) (run (fun n : ℕ => n)
        ({ capacity := 10, delta := 1/10, items := 1,
           levels := [[some (5, 42)], [none, none], []],
           occupanciesByLevel := [1, 0, 0], c := 4 } : HashTable ℕ ℕ) []) 5 = some v' ∧
      (v' = 42 ∨ Op.ins 5 v' ∈ ([] : List (Op ℕ ℕ)) ∨ Op.ins 5 v' ∈ ([] : List (Op ℕ ℕ))) ∧
      ((∀ w, Op.ins 5 w ∉ ([] : List (Op ℕ ℕ)) ∧ Op.ins 5 w ∉ ([] : List (Op ℕ ℕ))) →
        v' = 42) :=
  insert_then_get_finds_fixed_hasher (fun n : ℕ => n) 10 (1/10) [] 5 42
    { capacity := 10, delta := 1/10, items := 1,
      levels := [[some (5, 42)], [none, none], []],
      occupanciesByLevel := [1, 0, 0], c := 4 } []
    (by with_unfolding_all decide)

/-- C1: the claim asserts that a successful `Insert(k, v)` makes a
subsequent `Get(k)` return `(v', true)` for some value written under `k`.
Because `HashKey` draws a fresh random `maphash` seed on every call (the C2
defect), a lookup probes under hash values independent of those the
insertion used, and can miss the key.  Possible execution, evaluated on the
model (the hash argument of an operation is the value its probes see):
capacity 25 yields level sizes `[1, 3, 5, 0]`; a first key fills the size-1
level 0; inserting key 5 under a call whose masked hash is 2 places it in
slot 2 of the size-3 level 1; a `Get` whose call hashes to 0 probes level 1
only at indices 0 and 1 (its probe limit is 2 and the quadratic offsets
`j² mod 3` never produce 2), finds no match in any level, and returns the
not-found result — while a `Get` re-using the insert-time hash value would
have returned `(42, true)`. -/
theorem get_can_miss_inserted_key_across_reseeded_calls :
    ∃ t2 : HashTable ℕ ℕ,
      Insert (fun _ : ℕ => 2)
        (run (fun _ : ℕ => 2) (NewHashTable ℕ ℕ 25 (1/10)) [.ins 1 10]) 5 42 = .ok t2 ∧
      Get (fun _ : ℕ => 0) t2 5 = none ∧
      Get (fun _ : ℕ => 2) t2 5 = some 42 :=
  ⟨{ capacity := 25, delta := 1/10, items := 2,
     levels := [[some (1, 10)], [none, none, some (5, 42)],
       [none, none, none, none, none], []],
     occupanciesByLevel := [1, 1, 0, 0], c := 4 },
   by with_unfolding_all decide, by with_unfolding_all decide,
   by with_unfolding_all decide⟩

/-- C2: the claim asserts `HashKey` is deterministic within one running
instance.  The code builds a fresh zero-value `maphash.Hash` on every call;
the Go standard library initialises each such hash with a fresh random seed
on first use, and the sum depends on the seed, so two calls on the same key
evaluate seed-dependent hashes at independent seeds: in the seeded model,
within-instance determinism fails. -/
theorem hashKey_per_call_seed_not_deterministic :
    ¬ DeterministicWithinInstance HashKeyCall := by
  intro h
  have h01 := h 0 1 0
  norm_num [HashKeyCall, maphashSum64] at h01

/-- C3: the claim asserts the last level receives the entire unallocated
remainder so that level sizes sum to the capacity.  Evaluating `clear` shows
the loop only sizes levels `0 .. numLevels-2` and the last level is left as
the empty slice: for capacity 10 the sizes are `[1, 2]` plus an empty last
level (3 slots in total, not 10), and for capacity 3 the only level is empty
(0 slots, not 3). -/
theorem clear_last_level_left_empty :
    numLevels 10 = 3 ∧ levelSizes 10 = [1, 2] ∧
    (NewHashTable ℕ ℕ 10 (1/10)).levels =
      [List.replicate 1 none, List.replicate 2 none, []] ∧
    totalSlots (NewHashTable ℕ ℕ 10 (1/10)) = 3 ∧
    totalSlots (NewHashTable ℕ ℕ 3 (1/10)) = 0 := by
  decide

/-- C4: the claim asserts that for capacity 3 and delta 0.1 three inserts
with distinct keys succeed and the fourth fails.  In fact the very first
`Insert` fails with `FailedToInsertErr`, for every hash function and every
key and value: the table's only level has size 0 (see C3), its probe limit
is 0 iterations, and no placement is possible. -/
theorem insert_capacity3_first_insert_fails :
    ∀ (hash : ℕ → ℕ) (k v : ℕ),
      Insert hash (NewHashTable ℕ ℕ 3 (1/10)) k v = .error .failedToInsert := by
  intro hash k v
  with_unfolding_all rfl

/-- C5: for every table constructed with capacity `C` and slack `delta` in
`(0,1)`, after every sequence of `Insert` and `Get` operations the invariant
`items ≤ C - ⌊delta·C⌋` holds. -/
theorem items_le_capacity_slack [DecidableEq K] (hash : K → ℕ) (cap : ℕ) (delta : ℚ)
    (ops : List (Op K V)) (_hd0 : 0 < delta) (hd1 : delta < 1) :
    (((run hash (NewHashTable K V cap delta) ops).items : ℤ)) ≤
      (cap : ℤ) - ⌊delta * (cap : ℚ)⌋ := by
  have hbase : ((NewHashTable K V cap delta).items : ℤ) ≤
      maxLen (NewHashTable K V cap delta) := by
    have := maxLen_new_nonneg (K := K) (V := V) cap hd1
    simpa [NewHashTable] using this
  have hrun := items_le_maxLen_run hash ops _ hbase
  obtain ⟨hcap, hd, -⟩ := Evol_run (K := K) (V := V) hash ops (NewHashTable K V cap delta)
  calc (((run hash (NewHashTable K V cap delta) ops).items : ℤ))
      ≤ maxLen (run hash (NewHashTable K V cap delta) ops) := hrun
    _ = (cap : ℤ) - ⌊delta * (cap : ℚ)⌋ := by
        rw [maxLen, hcap, hd]
        simp [NewHashTable]

/-- Witness for C5: after one insertion into a capacity-10, delta-1/10
table, `items ≤ 10 - ⌊1⌋ = 9`. -/
theorem items_le_capacity_slack_witness :
    (((run (fun n : ℕ => n) (NewHashTable ℕ ℕ 10 (1/10)) [Op.ins 1 1]).items : ℤ)) ≤
      ((10 : ℕ) : ℤ) - ⌊(1/10 : ℚ) * ((10 : ℕ) : ℚ)⌋ :=
  items_le_capacity_slack (fun n : ℕ => n) 10 (1/10) [Op.ins 1 1]
    (by norm_num) (by norm_num)

/-- C6: `Insert` returns `OutOfSpaceErr` exactly when `items ≥ maxLen` held
at the moment of the call, and when the guard fires the caller's table is
completely untouched (the guard precedes any level visit). -/
theorem outOfSpace_iff_guard [DecidableEq K] (hash : K → ℕ) (t : HashTable K V)
    (k : K) (v : V) :
    (Insert hash t k v = .error .outOfSpace ↔ maxLen t ≤ (t.items : ℤ)) ∧
    (maxLen t ≤ (t.items : ℤ) → applyOp hash t (.ins k v) = t) := by
  constructor
  · constructor
    · intro h
      by_contra hc
      rw [Insert, if_neg hc] at h
      rcases hm : insertLevels (hash k) t.delta t.c k v t.levels t.occupanciesByLevel
        with _ | p
      · rw [hm] at h
        injection h with h'
        cases h'
      · rw [hm] at h
        cases h
    · intro h
      rw [Insert, if_pos h]
  · intro h
    simp only [applyOp]
    rw [Insert, if_pos h]

/-- Witness for C6: a capacity-0 table has `maxLen = 0 ≤ items = 0`, so the
guard fires, `OutOfSpaceErr` is returned, and the table is unchanged. -/
theorem outOfSpace_iff_guard_witness :
    Insert (fun n : ℕ => n) (NewHashTable ℕ ℕ 0 (1/2)) 1 2 = .error .outOfSpace ∧
    applyOp (fun n : ℕ => n) (NewHashTable ℕ ℕ 0 (1/2)) (.ins 1 2) =
      NewHashTable ℕ ℕ 0 (1/2) :=
  ⟨(outOfSpace_iff_guard (fun n : ℕ => n) (NewHashTable ℕ ℕ 0 (1/2)) 1 2).1.mpr
      (by with_unfolding_all decide),
   (outOfSpace_iff_guard (fun n : ℕ => n) (NewHashTable ℕ ℕ 0 (1/2)) 1 2).2
      (by with_unfolding_all decide)⟩

/-- C7: `Insert` is atomic on failure: whenever it returns any error, the
caller's table (items counter, every occupancy counter and every slot) is
exactly as before the call; all mutation happens only at the successful
placement. -/
theorem insert_error_leaves_table_unchanged [DecidableEq K] (hash : K → ℕ)
    (t : HashTable K V) (k : K) (v : V) (e : InsertError)
    (h : Insert hash t k v = .error e) : applyOp hash t (.ins k v) = t := by
  simp only [applyOp]
  rw [h]

/-- Witness for C7: the failing first insert of a capacity-3 table leaves
the table unchanged. -/
theorem insert_error_leaves_table_unchanged_witness :
    applyOp (fun n : ℕ => n) (NewHashTable ℕ ℕ 3 (1/10)) (.ins 1 2) =
      NewHashTable ℕ ℕ 3 (1/10) :=
  insert_error_leaves_table_unchanged (fun n : ℕ => n) (NewHashTable ℕ ℕ 3 (1/10)) 1 2
    .failedToInsert (by with_unfolding_all decide)

/-- C8: for a fixed level size `S > 0`, tuning constant `c` and slack
`delta`, the per-level probe limit is monotone non-decreasing in the
occupancy; hence, since occupancy never decreases, the limit `Get`
recomputes at lookup time is at least the limit in force at any earlier
moment (in particular when a key was inserted). -/
theorem probeLimit_monotone :
    (∀ (c : ℕ) (delta : ℚ) (S o o' : ℕ), 0 < S → o ≤ o' → o' ≤ S →
      probeIters c delta S o ≤ probeIters c delta S o') ∧
    (∀ (hash : ℕ → ℕ) (t : HashTable ℕ ℕ) (ops : List (Op ℕ ℕ)) (i : ℕ), WF t →
      levelLimit t i ≤ levelLimit (run hash t ops) i) := by
  constructor
  · intro c delta S o o' _ h1 h2
    exact probeIters_mono c delta h1 h2
  · intro hash t ops i hwf
    obtain ⟨-, hd, hc, -, hlev, hocc, -⟩ := Evol_run hash ops t
    have hwf' := WF_run hash ops t hwf
    rw [levelLimit, levelLimit, hd, hc, hlev i]
    apply probeIters_mono _ _ (hocc i)
    rw [← hlev i, hwf'.2 i]
    exact countSome_le_length _

/-- Witness for C8: the probe limit of a size-2 level grows from 1 to 4 as
occupancy goes from 0 to 1, and a level limit never shrinks across a run. -/
theorem probeLimit_monotone_witness :
    probeIters 4 (1/10) 2 0 ≤ probeIters 4 (1/10) 2 1 ∧
    levelLimit (NewHashTable ℕ ℕ 10 (1/10)) 1 ≤
      levelLimit (run (fun n : ℕ => n) (NewHashTable ℕ ℕ 10 (1/10)) [Op.ins 1 1]) 1 :=
  ⟨probeLimit_monotone.1 4 (1/10) 2 0 1 (by norm_num) (by norm_num) (by norm_num),
   probeLimit_monotone.2 (fun n : ℕ => n) _ [Op.ins 1 1] 1 (WF_new 10 (1/10))⟩

/-- C9: for every key, attempt index `j ≥ 0` and level size `S > 0`, the
probe function returns exactly `(hash(key) mod 2^32 + j²) mod S`, in
non-negative integer arithmetic, and the result lies in `[0, S)`. -/
theorem probe_formula_and_range (hash : ℕ → ℕ) (key j S : ℕ) :
    probe (hash key) j S = (hash key % 2 ^ 32 + j ^ 2) % S ∧
    (0 < S → probe (hash key) j S < S) := by
  constructor
  · rw [probe, pow_two]
  · intro h
    exact Nat.mod_lt _ h

/-- Witness for C9 at size 3. -/
theorem probe_formula_and_range_witness : 0 < 3 ∧ probe (id 5) 2 3 < 3 :=
  ⟨by decide, (probe_formula_and_range id 5 2 3).2 (by decide)⟩

/-- C10: no out-of-bounds access and no modulo by zero: a zero-size level
has probe limit 0 (the code's `int64(NaN)` conversion is non-positive), so
its probe loops run zero iterations and invoke `probe` not at all; whenever
`probe` is invoked the level size is positive, and the resulting index is
within bounds. -/
theorem no_out_of_bounds_access :
    (∀ (c : ℕ) (delta : ℚ) (occ : ℕ), probeIters c delta 0 occ = 0) ∧
    (∀ (hk c : ℕ) (delta : ℚ) (occ k : ℕ),
      findSlot hk ([] : Level ℕ ℕ) (probeIters c delta ([] : Level ℕ ℕ).length occ) = none ∧
      findKey hk k ([] : Level ℕ ℕ) (probeIters c delta ([] : Level ℕ ℕ).length occ) = none) ∧
    (∀ (h j S : ℕ), 0 < S → probe h j S < S) := by
  refine ⟨fun c delta occ => probeIters_zero_size c delta occ,
    fun hk c delta occ k => ⟨rfl, rfl⟩,
    fun h j S hS => Nat.mod_lt _ hS⟩

/-- Witness for C10 at size 5. -/
theorem no_out_of_bounds_access_witness : 0 < 5 ∧ probe 7 2 5 < 5 :=
  ⟨by decide, no_out_of_bounds_access.2.2 7 2 5 (by decide)⟩

end ElasticHash
